import Mathlib

/-!
Verification of the container-registry image resolution engine of
terraform-provider-buildkit (package `buildkit`, file containing `query`,
`queryOne`, `sinkChannels`, `mergeChannels`, `filterTags`, `filterLabels`,
`isSupportedPlatform`, `parsePlatform`, `processManifest`).

The Go source is shallowly embedded:
* Go `time.Time` instants are modelled as `Int` nanoseconds since the zero
  time (`UTC()` does not change the instant and is the identity here).
* Go `map[string]string` values are modelled as association lists
  `List (String × String)`; a Go map read `m[k]` yields the zero value `""`
  when the key is missing, modelled by `goMapGet`.
* Go channels are modelled by the event traces a consumer observes
  (`SinkEv`) and, where panics matter, by an explicit closed flag (`Chan`).
* The fallible/panicking parts (regex submatch indexing) return `Option`,
  `none` standing for a runtime panic.
-/

/-! ## Data model (types from the source file of `ImageResult`) -/

/-- Go `type Labels map[string]string`, as an association list. -/
abbrev GoLabels := List (String × String)

/-- Go errors are opaque here; only identity matters. -/
abbrev GoError := String

/-- The `ImageResult` struct from the source.  `BuildTimestamp` is a Go
`time.Time` instant in integer nanoseconds. -/
structure ImageResult where
  Name : String
  Registry : String
  Tag : String
  Labels : List (String × String)
  TagUrl : String
  DigestUrl : String
  ImageDigest : String
  Platform : String
  BuildTimestamp : Int
deriving DecidableEq, Repr

/-- The local `Platform` struct (`{OperatingSystem, Architecture}`). -/
structure Platform where
  OperatingSystem : String
  Architecture : String
deriving DecidableEq, Repr

/-- The `v1.Platform` of a child descriptor inside an index manifest (only
the two fields the source reads). -/
structure V1Platform where
  OS : String
  Architecture : String
deriving DecidableEq, Repr

/-- A child descriptor of a parsed index manifest (only the fields the
source reads: the platform and the content digest). -/
structure ChildDescriptor where
  platform : V1Platform
  digest : String
deriving DecidableEq, Repr

/-! ## Channel combinator models

`sinkChannels` (source lines 40-69) is a two-channel select loop.  The
consumer-visible behaviour is a function of the order in which values and
channel closures arrive; that order is a trace of `SinkEv` events.  A trace
that ends before the loop returns models a drain that blocks forever, and
`sinkRun` yields `none` for it. -/

/-- One event observed by `sinkChannels`: a value or a closure on the
results channel or on the errors channel. -/
inductive SinkEv (K E : Type) where
  | res (v : K)
  | resClosed
  | err (e : E)
  | errClosed
deriving DecidableEq, Repr

/-- The inner loop of `sinkChannels` (source lines 56-65): after the error
channel has closed with no value, only the results channel is read; it is
drained to completion.  Events on the already-closed error channel cannot
occur in a trace of the real program and are skipped. -/
def sinkDrain {K E : Type} (acc : List K) : List (SinkEv K E) → Option (List K × Option E)
  | [] => none
  | .res v :: rest => sinkDrain (acc ++ [v]) rest
  | .resClosed :: _ => some (acc, none)
  | .err _ :: rest => sinkDrain acc rest
  | .errClosed :: rest => sinkDrain acc rest

/-- The outer loop of `sinkChannels` (source lines 42-68): append arriving
results; stop with the collected results on a closed results channel; stop
immediately with the first error value; switch to `sinkDrain` when the
error channel closes without a value.  `none` means the loop never
returns (the drain blocks forever on open, silent channels). -/
def sinkRun {K E : Type} (acc : List K) : List (SinkEv K E) → Option (List K × Option E)
  | [] => none
  | .res v :: rest => sinkRun (acc ++ [v]) rest
  | .resClosed :: _ => some (acc, none)
  | .err e :: _ => some (acc, some e)
  | .errClosed :: rest => sinkDrain acc rest

/-- The channel-pair history of one work unit: every value it ever sends on
its results and errors channels, and whether it ever closes them. -/
structure ChanHist (K E : Type) where
  results : List K
  resClosed : Bool
  errors : List E
  errClosed : Bool
deriving DecidableEq, Repr

/-- The complete list of events a drain can ever receive from a unit with
history `h` (one representative order).  A unit that never closes its
channels and never sends contributes no events at all, so a drain fed only
by it blocks forever. -/
def unitTrace {K E : Type} (h : ChanHist K E) : List (SinkEv K E) :=
  h.errors.map .err ++ h.results.map .res ++
    (if h.resClosed then [SinkEv.resClosed] else []) ++
    (if h.errClosed then [SinkEv.errClosed] else [])

/-! ### Go channel close/send panics

`sinkChannels` closes its *input* channels on the error path (source lines
52-53), although those channels are the outputs of `mergeChannels` and are
still being sent to and closed by the merge goroutines.  In Go, a send on a
closed channel and a close of a closed channel both panic.  -/

/-- The reason a Go channel operation panics. -/
inductive GoPanic where
  | sendOnClosed
  | closeOfClosed
deriving DecidableEq, Repr

/-- A Go channel, reduced to its closed flag. -/
structure Chan (K : Type) where
  closed : Bool
deriving DecidableEq, Repr

/-- `ch <- v`: panics iff the channel is closed. -/
def chanSend {K : Type} (c : Chan K) (_v : K) : Except GoPanic (Chan K) :=
  if c.closed then .error .sendOnClosed else .ok c

/-- `close(ch)`: panics iff the channel is already closed. -/
def chanClose {K : Type} (c : Chan K) : Except GoPanic (Chan K) :=
  if c.closed then .error .closeOfClosed else .ok { closed := true }

/-- The error path of `sinkChannels` (source lines 51-54): on the first
error value it closes both of its input channels before returning. -/
def sinkErrorPath {K E : Type} (resultsIn : Chan K) (errorsIn : Chan E) :
    Except GoPanic (Chan K × Chan E) := do
  let r ← chanClose resultsIn
  let e ← chanClose errorsIn
  return (r, e)

/-- The relay loop body of `mergeChannels` (source line 28): forward one
value from an input channel into the shared output channel. -/
def mergeForward {K : Type} (out : Chan K) (v : K) : Except GoPanic (Chan K) :=
  chanSend out v

/-- The coordinator of `mergeChannels` (source lines 33-36): after all
relays finish, close the shared output channel. -/
def mergeFinish {K : Type} (out : Chan K) : Except GoPanic (Chan K) :=
  chanClose out

/-! ## Manifest classifier (media types)

Values of `types.MediaType` from go-containerregistry; the three
classifier functions are translated from the source (lines 400-410), with
`IsIndex`/`IsImage` expanded to the library's definitions. -/

/-- `types.OCIImageIndex`. -/
def ociImageIndex : String := "application/vnd.oci.image.index.v1+json"

/-- `types.OCIManifestSchema1`. -/
def ociManifestSchema1 : String := "application/vnd.oci.image.manifest.v1+json"

/-- `types.DockerManifestList`. -/
def dockerManifestList : String := "application/vnd.docker.distribution.manifest.list.v2+json"

/-- `types.DockerManifestSchema2`. -/
def dockerManifestSchema2 : String := "application/vnd.docker.distribution.manifest.v2+json"

/-- `types.DockerManifestSchema1`. -/
def dockerManifestSchema1 : String := "application/vnd.docker.distribution.manifest.v1+json"

/-- `types.DockerManifestSchema1Signed`. -/
def dockerManifestSchema1Signed : String := "application/vnd.docker.distribution.manifest.v1+prettyjws"

/-- `isV2IndexManifest` (source line 400): `kind.IsIndex()`. -/
def isV2IndexManifest (kind : String) : Bool :=
  kind == ociImageIndex || kind == dockerManifestList

/-- `isV2ImageManifest` (source line 404): `kind.IsImage()`. -/
def isV2ImageManifest (kind : String) : Bool :=
  kind == ociManifestSchema1 || kind == dockerManifestSchema2

/-- `isV1ImageManifest` (source line 408). -/
def isV1ImageManifest (kind : String) : Bool :=
  kind == dockerManifestSchema1Signed || kind == dockerManifestSchema1

/-- The channel-pair history produced by the body of `queryOne`'s goroutine
after a successful manifest fetch, as a function of the fetched media type
(source lines 183-296).  The branch outcomes that depend on further network
calls are parameters:
* `indexHist` — what `copyChannels` relays into the unit's pair in the
  index branch (line 239);
* `v2Outcome` — the result of `processManifest` in the v2 image branch
  (line 243);
* `v1Outcome` — the result of decode + digest lookup in the schema-1
  branch (lines 256-292).
In the v2 and schema-1 branches the unit emits exactly one value and then
closes both channels.  The if/else-if chain has **no final else**: for any
other media type the goroutine returns without sending anything and
without closing either channel. -/
def queryOneHist (mediaType : String) (indexHist : ChanHist ImageResult GoError)
    (v2Outcome v1Outcome : Except GoError ImageResult) : ChanHist ImageResult GoError :=
  if isV2IndexManifest mediaType then
    indexHist
  else if isV2ImageManifest mediaType then
    match v2Outcome with
    | .error e => { results := [], resClosed := true, errors := [e], errClosed := true }
    | .ok r => { results := [r], resClosed := true, errors := [], errClosed := true }
  else if isV1ImageManifest mediaType then
    match v1Outcome with
    | .error e => { results := [], resClosed := true, errors := [e], errClosed := true }
    | .ok r => { results := [r], resClosed := true, errors := [], errClosed := true }
  else
    { results := [], resClosed := false, errors := [], errClosed := false }

/-! ## Label filter -/

/-- A Go map read `m[k]`: the zero value `""` when the key is absent. -/
def goMapGet (m : List (String × String)) (k : String) : String :=
  (m.lookup k).getD ""

/-- `filterLabels` (source lines 412-427): keep an image iff every
required key/value pair agrees with the Go map read of the image's
labels. -/
def filterLabels (images : List ImageResult) (labels : List (String × String)) :
    List ImageResult :=
  images.filter (fun image => labels.all (fun kv => goMapGet image.Labels kv.1 == kv.2))

/-! ## Sort (source lines 143-151)

`sort.SliceStable` with the source's comparator.  A stable sort is uniquely
determined by the comparator and the input order, so it is modelled by a
stable insertion sort; `goLess` is the literal translation of the `less`
closure. -/

/-- The `less` closure passed to `sort.SliceStable` (source lines 143-151):
`i` before `j` iff `i`'s timestamp is after `j`'s, or the timestamps are
equal and `i`'s digest string is greater. -/
def goLess (a b : ImageResult) : Bool :=
  if a.BuildTimestamp < b.BuildTimestamp then false
  else if b.BuildTimestamp < a.BuildTimestamp then true
  else b.ImageDigest < a.ImageDigest

/-- Insert an element into a sorted list, after every element that
strictly precedes it (`goLess x a`), so equal elements keep their original
relative order. -/
def insertRes (a : ImageResult) : List ImageResult → List ImageResult
  | [] => [a]
  | x :: xs => if goLess x a then x :: insertRes a xs else a :: x :: xs

/-- The stable sort of the result list by `goLess`. -/
def sortResults (l : List ImageResult) : List ImageResult :=
  l.foldr insertRes []

/-! ## Timestamps and result construction -/

/-- Go `t.Round(time.Second)` on an instant of `t` nanoseconds: rounds to
the nearest multiple of one second, halfway values rounding up
(away from the zero time). -/
def goRoundSecond (t : Int) : Int :=
  if 2 * (t % 1000000000) < 1000000000 then t - t % 1000000000
  else t - t % 1000000000 + 1000000000

/-- Go `t.Truncate(time.Second)`: rounds down, discarding all sub-second
precision.  The source does *not* call this; it is the operation the spec
describes. -/
def goTruncateSecond (t : Int) : Int :=
  t - t % 1000000000

/-- `normalize` (source lines 358-364): a nil map becomes the empty map. -/
def normalizeLabels (x : Option (List (String × String))) : List (String × String) :=
  match x with
  | none => []
  | some m => m

/-- The parts of a tag reference the result constructors read:
`RepositoryStr()`, `RegistryStr()`, `Identifier()`, `Name()`, and the
repository name used to render a digest reference
(`Context().Digest(d).String()` is `contextName ++ "@" ++ d`). -/
structure RefParts where
  repositoryStr : String
  registryStr : String
  identifier : String
  name : String
  contextName : String
deriving DecidableEq, Repr

/-- The fields of the decoded image config blob that `processManifest`
reads (`ImageConfigManifest`): architecture, os, creation instant, and the
possibly-nil label map. -/
structure ImageConfigFields where
  architecture : String
  os : String
  created : Int
  labels : Option (List (String × String))
deriving DecidableEq, Repr

/-- The fields of the decoded first `v1Compatibility` history entry that
the schema-1 branch reads (`SchemaV1History`): os, architecture, creation
instant, `config.Image`, and the possibly-nil `config.Labels`. -/
structure SchemaV1HistoryFields where
  os : String
  architecture : String
  created : Int
  configImage : String
  configLabels : Option (List (String × String))
deriving DecidableEq, Repr

/-- The `ImageResult` built by `processManifest` (source lines 344-355)
from the parsed manifest's config digest, the decoded config blob and the
independently resolved tag digest.  `Created.UTC()` does not change the
instant; `Round(time.Second)` is `goRoundSecond`. -/
def processManifestResult (ref : RefParts) (configDigest : String)
    (imageConfig : ImageConfigFields) (digest : String) : ImageResult :=
  { Name := ref.repositoryStr
    Registry := ref.registryStr
    Tag := ref.identifier
    Labels := normalizeLabels imageConfig.labels
    TagUrl := ref.name
    DigestUrl := ref.contextName ++ "@" ++ digest
    ImageDigest := configDigest
    Platform := imageConfig.os ++ "/" ++ imageConfig.architecture
    BuildTimestamp := goRoundSecond imageConfig.created }

/-- The `ImageResult` built inline by the schema-1 branch of `queryOne`
(source lines 282-292). -/
def queryOneV1Result (ref : RefParts) (layerManifest : SchemaV1HistoryFields)
    (digest : String) : ImageResult :=
  { Name := ref.repositoryStr
    Registry := ref.registryStr
    Tag := ref.identifier
    Labels := normalizeLabels layerManifest.configLabels
    TagUrl := ref.name
    DigestUrl := ref.contextName ++ "@" ++ digest
    ImageDigest := layerManifest.configImage
    Platform := layerManifest.os ++ "/" ++ layerManifest.architecture
    BuildTimestamp := goRoundSecond layerManifest.created }

/-! ## Tag filter (source lines 429-447)

`filterTags` compiles the tag pattern with Go's `regexp` package and keeps
the tags for which `MatchString` reports a match (a match anywhere in the
string; `^` and `$` anchor to the start and end of the text).

The regex engine is modelled for the fragment the provider exercises:
literal characters, the class `\d`, the anchors `^` and `$`, and the
one-or-more postfix `+` on a single-character atom.  Patterns using other
metacharacters fail to compile (`none`), standing in both for genuinely
invalid patterns (where `regexp.MustCompile` panics) and for constructs
outside the modelled fragment. -/

/-- A single-character matcher: a literal character or the class `\d`. -/
inductive CClass where
  | lit (c : Char)
  | digit
deriving DecidableEq, Repr

/-- One compiled regex atom. -/
inductive RAtom where
  | cls (k : CClass)
  | plus (k : CClass)
  | anchorStart
  | anchorEnd
deriving DecidableEq, Repr

/-- Whether a character class matches a character (`\d` is ASCII 0-9,
as in RE2). -/
def classMatches (k : CClass) (d : Char) : Bool :=
  match k with
  | .lit c => d == c
  | .digit => d.isDigit

/-- End positions of one-or-more repetitions of a single-character class,
starting at absolute position `i` whose suffix of the subject is `l`. -/
def runEnds (p : Char → Bool) : List Char → Nat → List Nat
  | [], _ => []
  | c :: rest, i => if p c then (i + 1) :: runEnds p rest (i + 1) else []

/-- End positions at which `a` can match starting at position `i` of the
subject `cs`. -/
def atomEnds (cs : List Char) (i : Nat) : RAtom → List Nat
  | .cls k =>
    match cs[i]? with
    | some d => if classMatches k d then [i + 1] else []
    | none => []
  | .plus k => runEnds (classMatches k) (cs.drop i) i
  | .anchorStart => if i = 0 then [i] else []
  | .anchorEnd => if i = cs.length then [i] else []

/-- End positions at which the atom sequence can match starting at `i`. -/
def seqEnds (cs : List Char) : List RAtom → Nat → List Nat
  | [], i => [i]
  | a :: re, i => (atomEnds cs i a).flatMap (seqEnds cs re)

/-- Go `Regexp.MatchString`: the subject contains a match of the compiled
expression starting at some position. -/
def matchString (re : List RAtom) (s : String) : Bool :=
  (List.range (s.data.length + 1)).any (fun i => !(seqEnds s.data re i).isEmpty)

/-- The characters Go's `regexp.QuoteMeta` escapes. -/
def isSpecialChar (c : Char) : Bool :=
  c == '\\' || c == '.' || c == '+' || c == '*' || c == '?' || c == '(' ||
  c == ')' || c == '|' || c == '[' || c == ']' || c == '{' || c == '}' ||
  c == '^' || c == '$'

/-- Unescaped metacharacters that start constructs outside the modelled
regex fragment (or, for a leading `+`, are invalid): compilation yields
`none`. -/
def isBareMeta (c : Char) : Bool :=
  c == '+' || c == '*' || c == '?' || c == '(' || c == ')' || c == '|' ||
  c == '[' || c == ']' || c == '{' || c == '}' || c == '.'

/-- The class denoted by the escape `\c`: `\d` is the digit class, an
escaped special character is that literal; other escapes are outside the
fragment. -/
def escClass (c : Char) : Option CClass :=
  if c == 'd' then some .digit
  else if isSpecialChar c then some (.lit c)
  else none

/-- One lexical token of a pattern: an escaped character or a plain one. -/
inductive RTok where
  | esc (c : Char)
  | plain (c : Char)
deriving DecidableEq, Repr

/-- Split a pattern into tokens, resolving backslash escapes.  A trailing
backslash is invalid (`none`). -/
def tokenize : List Char → Option (List RTok)
  | [] => some []
  | c :: [] => if c = '\\' then none else some [RTok.plain c]
  | c :: d :: rest =>
    if c = '\\' then (tokenize rest).map (fun l => RTok.esc d :: l)
    else (tokenize (d :: rest)).map (fun l => RTok.plain c :: l)

/-- The atom denoted by a single token: anchors for plain `^`/`$`,
rejection of unescaped metacharacters, a literal otherwise, and the class
of an escape. -/
def atomOf : RTok → Option RAtom
  | .esc d => (escClass d).map RAtom.cls
  | .plain c =>
    if c = '^' then some RAtom.anchorStart
    else if c = '$' then some RAtom.anchorEnd
    else if isBareMeta c then none
    else some (RAtom.cls (CClass.lit c))

/-- The character class denoted by a token, for use under a postfix `+`
(anchors and metacharacters cannot be repeated in this fragment). -/
def clsOf : RTok → Option CClass
  | .esc d => escClass d
  | .plain c =>
    if c = '^' then none
    else if c = '$' then none
    else if isBareMeta c then none
    else some (CClass.lit c)

/-- Whether a token is the plain postfix operator `+`. -/
def isPlusTok : RTok → Bool
  | .plain c => c = '+'
  | .esc _ => false

/-- Assemble tokens into atoms, attaching a postfix `+` to the preceding
character atom. -/
def atomize : List RTok → Option (List RAtom)
  | [] => some []
  | t :: [] => (atomOf t).map (fun a => [a])
  | t :: t2 :: rest =>
    if isPlusTok t2 then
      match clsOf t with
      | some k => (atomize rest).map (fun l => RAtom.plus k :: l)
      | none => none
    else (atomOf t).bind fun a => (atomize (t2 :: rest)).map (fun l => a :: l)

/-- Compile a pattern (as a character list) into an atom sequence.
Supports literals, `\d`, escaped specials, `^`, `$`, and postfix `+` on a
character atom; anything else yields `none`. -/
def parseChars (l : List Char) : Option (List RAtom) :=
  (tokenize l).bind atomize

/-- The token `regexp.QuoteMeta` produces for one character. -/
def quoteTok (c : Char) : RTok :=
  if isSpecialChar c then RTok.esc c else RTok.plain c

/-- Go `regexp.QuoteMeta` on a character list: escape every special
character. -/
def quoteMetaChars (l : List Char) : List Char :=
  l.flatMap (fun c => if isSpecialChar c then ['\\', c] else [c])

/-- Go `strings.Trim(s, "/")` on a character list: remove all leading and
trailing slashes. -/
def trimSlashes (l : List Char) : List Char :=
  ((l.dropWhile (· == '/')).reverse.dropWhile (· == '/')).reverse

/-- `strings.HasPrefix(p, "/") && strings.HasSuffix(p, "/")`
(source line 434). -/
def slashWrapped (p : String) : Bool :=
  p.data.head? == some '/' && p.data.getLast? == some '/'

/-- `filterTags` (source lines 429-447): a slash-wrapped pattern is
compiled as a regular expression after trimming the slashes; any other
pattern is quoted and anchored (`^pattern$`); the tags matching the
compiled expression are kept in order.  `none` models a pattern outside
the compiled fragment. -/
def filterTags (tags : List String) (tagPattern : String) : Option (List String) :=
  (if slashWrapped tagPattern then
      parseChars (trimSlashes tagPattern.data)
    else
      parseChars ('^' :: (quoteMetaChars tagPattern.data ++ ['$']))).map
    (fun re => tags.filter (fun x => matchString re x))

/-! ## Platform parsing and selection (source lines 366-398) -/

/-- Go `strings.EqualFold`, restricted to ASCII simple case folding (the
only case the provider's `os/arch` strings exercise). -/
def eqFold (s t : String) : Bool :=
  s.data.map Char.toLower == t.data.map Char.toLower

/-- One match attempt of the regex `(?P<os>[^/]+)/(?P<architecture>[^/]+)`
at the start of a suffix: a maximal nonempty run of non-slash characters,
a slash, and a maximal nonempty run of non-slash characters. -/
def matchOsArch (cs : List Char) : Option (List Char × List Char) :=
  if (cs.takeWhile (· ≠ '/')).isEmpty then none
  else
    match cs.drop (cs.takeWhile (· ≠ '/')).length with
    | '/' :: rest =>
      if (rest.takeWhile (· ≠ '/')).isEmpty then none
      else some (cs.takeWhile (· ≠ '/'), rest.takeWhile (· ≠ '/'))
    | _ => none

/-- `re.FindStringSubmatch` for the platform regex: the leftmost match, or
`none` when the subject contains no match (Go returns a nil slice). -/
def findOsArch : List Char → Option (List Char × List Char)
  | [] => none
  | c :: rest =>
    match matchOsArch (c :: rest) with
    | some r => some r
    | none => findOsArch rest

/-- `parsePlatform` (source lines 377-384) via `parseGroups` (366-375):
on a subject with no match, `parseGroups` indexes the nil submatch slice
and panics — modelled as `none`. -/
def parsePlatform (platform : String) : Option Platform :=
  (findOsArch platform.data).map fun g =>
    { OperatingSystem := String.mk g.1, Architecture := String.mk g.2 }

/-- The range-for loop of `isSupportedPlatform` (source lines 390-397):
each entry is parsed in turn and compared case-insensitively against the
child's platform, returning on the first hit.  `none` models the panic
propagating out of `parsePlatform`. -/
def isSupportedPlatformLoop (platform : V1Platform) : List String → Option Bool
  | [] => some false
  | x :: rest =>
    (parsePlatform x).bind fun parsed =>
      if eqFold parsed.OperatingSystem platform.OS &&
          eqFold parsed.Architecture platform.Architecture then
        some true
      else
        isSupportedPlatformLoop platform rest

/-- `isSupportedPlatform` (source lines 386-398): an empty requirement
list accepts everything; otherwise the entries are scanned by
`isSupportedPlatformLoop`. -/
def isSupportedPlatform (requiredPlatforms : List String) (platform : V1Platform) :
    Option Bool :=
  if requiredPlatforms.length = 0 then some true
  else isSupportedPlatformLoop platform requiredPlatforms

/-- The child-selection loop of the index branch of `queryOne` (source
lines 198-234): one concurrent resolution task is spawned for exactly the
children whose platform is supported.  `none` models the panic from a
malformed requirement entry. -/
def selectedChildren (requiredPlatforms : List String)
    (manifests : List ChildDescriptor) : Option (List ChildDescriptor) :=
  match manifests with
  | [] => some []
  | d :: rest =>
    (isSupportedPlatform requiredPlatforms d.platform).bind fun keep =>
      (selectedChildren requiredPlatforms rest).map fun tail =>
        if keep then d :: tail else tail

/-! ## The query orchestrator (source lines 108-154) -/

/-- The tail of `query` after the drain (source lines 137-153): the label
filter runs only when the drain produced no error, but the sort runs
unconditionally on whatever list is about to be returned. -/
def queryFinish (drained : List ImageResult × Option GoError)
    (labels : List (String × String)) : List ImageResult × Option GoError :=
  let results := if drained.2 = none then filterLabels drained.1 labels else drained.1
  (sortResults results, drained.2)

/-- The whole of `query` (source lines 108-154), with the network
parameterized: `tagsResult` is the outcome of `crane.ListTags` and
`trace` is the merged event stream the drain observes.  `none` models a
query that never returns (the drain blocks forever) or a tag pattern
outside the compiled fragment. -/
def queryModel (tagsResult : Except GoError (List String)) (tagPattern : String)
    (labels : List (String × String)) (trace : List (SinkEv ImageResult GoError)) :
    Option (List ImageResult × Option GoError) :=
  match tagsResult with
  | .error e => some ([], some e)
  | .ok tags =>
    match filterTags tags tagPattern with
    | none => none
    | some matchingTags =>
      if matchingTags.isEmpty then some ([], none)
      else (sinkRun [] trace).map (fun drained => queryFinish drained labels)

/-! ## Declarative regex semantics

An inductive matching relation, independent of the executable matcher:
`RAtomM cs a i j` holds when atom `a` matches the characters of `cs` from
position `i` to position `j`, and `SeqM cs re i j` when the atom sequence
`re` does.  "`s` contains a match of `re`" is `∃ i j, SeqM s.data re i j`. -/

inductive RAtomM (cs : List Char) : RAtom → Nat → Nat → Prop where
  | cls {k : CClass} {i : Nat} {d : Char} :
      cs[i]? = some d → classMatches k d = true → RAtomM cs (.cls k) i (i + 1)
  | plusOne {k : CClass} {i : Nat} {d : Char} :
      cs[i]? = some d → classMatches k d = true → RAtomM cs (.plus k) i (i + 1)
  | plusCons {k : CClass} {i j : Nat} {d : Char} :
      cs[i]? = some d → classMatches k d = true → RAtomM cs (.plus k) (i + 1) j →
      RAtomM cs (.plus k) i j
  | anchorStart : RAtomM cs .anchorStart 0 0
  | anchorEnd : RAtomM cs .anchorEnd cs.length cs.length

inductive SeqM (cs : List Char) : List RAtom → Nat → Nat → Prop where
  | nil {i : Nat} : SeqM cs [] i i
  | cons {a : RAtom} {re : List RAtom} {i j k : Nat} :
      RAtomM cs a i j → SeqM cs re j k → SeqM cs (a :: re) i k

/-! ## Spec-side relations and concrete fixtures -/

/-- The sort key the spec orders by: build timestamp, then digest. -/
def resKey (r : ImageResult) : Int × String :=
  (r.BuildTimestamp, r.ImageDigest)

/-- The spec's result ordering: `a` may precede `b` iff `a`'s timestamp is
later, or the timestamps are equal and `a`'s digest is lexicographically
greater or equal. -/
def specGE (a b : ImageResult) : Prop :=
  b.BuildTimestamp < a.BuildTimestamp ∨
    (b.BuildTimestamp = a.BuildTimestamp ∧
      (b.ImageDigest < a.ImageDigest ∨ b.ImageDigest = a.ImageDigest))

/-- `a` strictly precedes `b` in the spec ordering. -/
def specGT (a b : ImageResult) : Prop :=
  b.BuildTimestamp < a.BuildTimestamp ∨
    (b.BuildTimestamp = a.BuildTimestamp ∧ b.ImageDigest < a.ImageDigest)

/-- Membership of both sort keys in a fixed equivalence class, for stating
stability. -/
def sameKey (t : Int) (d : String) (r : ImageResult) : Bool :=
  r.BuildTimestamp == t && r.ImageDigest == d

/-- "`s` contains a match of `re`" in the declarative semantics. -/
def ContainsMatch (re : List RAtom) (s : String) : Prop :=
  ∃ i j, SeqM s.data re i j

/-- A requirement entry of the exact shape `os/arch` with both components
nonempty and slash-free — the precondition under which `parsePlatform`
cannot panic. -/
def WfPlatformEntry (x : String) : Prop :=
  ∃ os arch : String,
    x = os ++ "/" ++ arch ∧ os.data ≠ [] ∧ arch.data ≠ [] ∧
      '/' ∉ os.data ∧ '/' ∉ arch.data

/-- Fixture: a result with the earlier timestamp and smaller digest. -/
def resA : ImageResult :=
  { Name := "library/app", Registry := "index.docker.io", Tag := "t1",
    Labels := [], TagUrl := "index.docker.io/library/app:t1",
    DigestUrl := "index.docker.io/library/app@sha256:aaa",
    ImageDigest := "sha256:aaa", Platform := "linux/amd64",
    BuildTimestamp := 1000000000 }

/-- Fixture: a result with the later timestamp and larger digest. -/
def resB : ImageResult :=
  { Name := "library/app", Registry := "index.docker.io", Tag := "t2",
    Labels := [], TagUrl := "index.docker.io/library/app:t2",
    DigestUrl := "index.docker.io/library/app@sha256:bbb",
    ImageDigest := "sha256:bbb", Platform := "linux/amd64",
    BuildTimestamp := 2000000000 }

/-- Fixture: a result whose label map is empty (in particular, missing the
key `"env"`). -/
def resNoLabels : ImageResult :=
  { Name := "library/app", Registry := "index.docker.io", Tag := "t3",
    Labels := [], TagUrl := "index.docker.io/library/app:t3",
    DigestUrl := "index.docker.io/library/app@sha256:ccc",
    ImageDigest := "sha256:ccc", Platform := "linux/amd64",
    BuildTimestamp := 3000000000 }

/-- Fixture: reference parts of a tag reference. -/
def sampleRef : RefParts :=
  { repositoryStr := "library/app", registryStr := "index.docker.io",
    identifier := "v1", name := "index.docker.io/library/app:v1",
    contextName := "index.docker.io/library/app" }

/-- Fixture: a decoded config blob whose creation instant carries 0.6s of
sub-second precision. -/
def sampleConfig : ImageConfigFields :=
  { architecture := "amd64", os := "linux", created := 600000000,
    labels := some [("env", "prod")] }

/-- Fixture: a decoded schema-1 history entry with the same creation
instant. -/
def sampleV1History : SchemaV1HistoryFields :=
  { os := "linux", architecture := "amd64", created := 600000000,
    configImage := "sha256:ddd", configLabels := none }

/-- Fixture: an index child descriptor on linux/amd64. -/
def childAmd : ChildDescriptor :=
  { platform := { OS := "linux", Architecture := "amd64" }, digest := "sha256:amd" }

/-- Fixture: an index child descriptor on windows/arm64. -/
def childArm : ChildDescriptor :=
  { platform := { OS := "windows", Architecture := "arm64" }, digest := "sha256:arm" }

/-! # Theorems -/

/-! ## Drain behaviour (C3, C1, C4, C2) -/

theorem sinkRun_append_res {K E : Type} (vs : List K) (acc : List K)
    (t : List (SinkEv K E)) :
    sinkRun acc (vs.map SinkEv.res ++ t) = sinkRun (acc ++ vs) t := by
  induction vs generalizing acc with
  | nil => simp
  | cons v vs ih => simpa [sinkRun] using ih (acc ++ [v])

theorem sinkDrain_append_res {K E : Type} (vs : List K) (acc : List K)
    (t : List (SinkEv K E)) :
    sinkDrain acc (vs.map SinkEv.res ++ t) = sinkDrain (acc ++ vs) t := by
  induction vs generalizing acc with
  | nil => simp
  | cons v vs ih => simpa [sinkDrain] using ih (acc ++ [v])

/-- C3: while both channels are open (the events so far are only result
values), an arriving error makes `sinkChannels` return at once with the
results collected so far and that error, regardless of anything that
would arrive later; if instead the error channel closes without a value,
the results channel is drained to completion and the full list is
returned with a nil error. -/
theorem sinkChannels_first_error_wins {K E : Type} (vs vs2 : List K) (e : E)
    (rest : List (SinkEv K E)) :
    sinkRun [] (vs.map SinkEv.res ++ SinkEv.err e :: rest) = some (vs, some e) ∧
    sinkRun [] (vs.map SinkEv.res ++ (SinkEv.errClosed : SinkEv K E) ::
        (vs2.map SinkEv.res ++ [SinkEv.resClosed])) = some (vs ++ vs2, none) := by
  constructor
  · rw [sinkRun_append_res]
    simp [sinkRun]
  · rw [sinkRun_append_res]
    show sinkDrain _ _ = _
    rw [sinkDrain_append_res]
    simp [sinkDrain]

/-- C1 (the code diverges from the claim): for a fetched media type that
is neither an index, a v2 image manifest, nor a schema-1 manifest, the
`queryOne` goroutine falls off the end of its if/else-if chain without
sending any error and without closing its channels, so the drain fed by
such a unit never receives an event and never returns — the query hangs
instead of surfacing an error. -/
theorem queryOne_unsupported_mediaType_silently_hangs
    (m : String) (hi : ChanHist ImageResult GoError)
    (v2o v1o : Except GoError ImageResult)
    (h1 : isV2IndexManifest m = false) (h2 : isV2ImageManifest m = false)
    (h3 : isV1ImageManifest m = false) :
    queryOneHist m hi v2o v1o =
      { results := [], resClosed := false, errors := [], errClosed := false } ∧
    sinkRun [] (unitTrace (queryOneHist m hi v2o v1o)) = none := by
  have hq : queryOneHist m hi v2o v1o =
      { results := [], resClosed := false, errors := [], errClosed := false } := by
    simp [queryOneHist, h1, h2, h3]
  refine ⟨hq, ?_⟩
  rw [hq]
  simp [unitTrace, sinkRun]

theorem queryOne_unsupported_mediaType_silently_hangs_witness :
    isV2IndexManifest "application/vnd.unknown.thing+json" = false ∧
    isV2ImageManifest "application/vnd.unknown.thing+json" = false ∧
    isV1ImageManifest "application/vnd.unknown.thing+json" = false ∧
    sinkRun [] (unitTrace (queryOneHist "application/vnd.unknown.thing+json"
      { results := [resA], resClosed := true, errors := [], errClosed := true }
      (.ok resA) (.ok resB))) = none := by
  refine ⟨by decide, by decide, by decide, ?_⟩
  exact (queryOne_unsupported_mediaType_silently_hangs
    "application/vnd.unknown.thing+json"
    { results := [resA], resClosed := true, errors := [], errClosed := true }
    (.ok resA) (.ok resB) (by decide) (by decide) (by decide)).2

/-- C4 (the code diverges from the claim): on its error path the drain
closes the two merged channels it does not own; after that, a sibling work
unit that emits a result makes its merge relay send on a closed channel,
and each merge coordinator's final close is a close of an already-closed
channel — both are Go runtime panics, so late-finishing siblings do not
run to completion harmlessly. -/
theorem sinkChannels_error_path_causes_sibling_panics :
    sinkErrorPath (⟨false⟩ : Chan ImageResult) (⟨false⟩ : Chan GoError) =
      .ok (⟨true⟩, ⟨true⟩) ∧
    (∀ v : ImageResult, mergeForward (⟨true⟩ : Chan ImageResult) v =
      .error GoPanic.sendOnClosed) ∧
    mergeFinish (⟨true⟩ : Chan ImageResult) = .error GoPanic.closeOfClosed ∧
    mergeFinish (⟨true⟩ : Chan GoError) = .error GoPanic.closeOfClosed := by
  exact ⟨rfl, fun v => rfl, rfl, rfl⟩

/-- C2 (counterexample): a query whose drain stops on an error returns the
partial results *sorted* (here the arrival order `[resA, resB]` comes back
as `[resB, resA]`) and unfiltered (the required label `env=prod` is absent
from both results, yet they are returned), so the claim that the sort is
skipped is false. -/
theorem query_error_counterexample :
    queryModel (.ok ["t1", "t2"]) "/t/" [("env", "prod")]
      [SinkEv.res resA, SinkEv.res resB, SinkEv.err "boom"] =
      some ([resB, resA], some "boom") ∧
    [resB, resA] ≠ [resA, resB] := by
  constructor
  · rfl
  · decide

/-- C2 (amended): when the drain yields an error, `query` returns the
partial result list collected before the error with the label filter
skipped but the sort still applied, alongside that error. -/
theorem query_error_skips_filter_but_sorts (vs : List ImageResult) (e : GoError)
    (rest : List (SinkEv ImageResult GoError)) (labels : List (String × String)) :
    sinkRun [] (vs.map SinkEv.res ++ SinkEv.err e :: rest) = some (vs, some e) ∧
    queryFinish (vs, some e) labels = (sortResults vs, some e) := by
  constructor
  · rw [sinkRun_append_res]
    simp [sinkRun]
  · simp [queryFinish]

/-! ## Sorting (C6) -/

theorem specGT_imp_specGE {a b : ImageResult} (h : specGT a b) : specGE a b := by
  rcases h with h | ⟨h1, h2⟩
  · exact Or.inl h
  · exact Or.inr ⟨h1, Or.inl h2⟩

theorem goLess_true_iff (a b : ImageResult) : goLess a b = true ↔ specGT a b := by
  unfold goLess specGT
  rcases lt_trichotomy a.BuildTimestamp b.BuildTimestamp with h | h | h
  · rw [if_pos h]
    simp only [Bool.false_eq_true, false_iff]
    rintro (h2 | ⟨h2, _⟩) <;> omega
  · rw [if_neg (by omega), if_neg (by omega), decide_eq_true_eq]
    constructor
    · intro hd
      exact Or.inr ⟨by omega, hd⟩
    · rintro (h2 | ⟨_, h2⟩)
      · omega
      · exact h2
  · rw [if_neg (by omega), if_pos h]
    simp only [true_iff]
    exact Or.inl h

theorem goLess_false_iff (a b : ImageResult) : goLess a b = false ↔ specGE b a := by
  unfold goLess specGE
  rcases lt_trichotomy a.BuildTimestamp b.BuildTimestamp with h | h | h
  · rw [if_pos h]
    simp only [true_iff]
    exact Or.inl h
  · rw [if_neg (by omega), if_neg (by omega), decide_eq_false_iff_not, not_lt,
      le_iff_lt_or_eq]
    constructor
    · rintro (h2 | h2)
      · exact Or.inr ⟨by omega, Or.inl h2⟩
      · exact Or.inr ⟨by omega, Or.inr h2⟩
    · rintro (h2 | ⟨_, h2 | h2⟩)
      · omega
      · exact Or.inl h2
      · exact Or.inr h2
  · rw [if_neg (by omega), if_pos h]
    simp only [Bool.true_eq_false, false_iff]
    rintro (h2 | ⟨h2, _⟩) <;> omega

theorem specGE_trans {a b c : ImageResult} (hab : specGE a b) (hbc : specGE b c) :
    specGE a c := by
  rcases hab with h1 | ⟨h1, h2⟩
  · rcases hbc with h3 | ⟨h3, h4⟩
    · exact Or.inl (by omega)
    · exact Or.inl (by omega)
  · rcases hbc with h3 | ⟨h3, h4⟩
    · exact Or.inl (by omega)
    · refine Or.inr ⟨by omega, ?_⟩
      rcases h2 with h2 | h2
      · rcases h4 with h4 | h4
        · exact Or.inl (lt_trans h4 h2)
        · exact Or.inl (h4 ▸ h2)
      · rcases h4 with h4 | h4
        · exact Or.inl (h2 ▸ h4)
        · exact Or.inr (h4.trans h2)

theorem insertRes_perm (a : ImageResult) (l : List ImageResult) :
    List.Perm (insertRes a l) (a :: l) := by
  induction l with
  | nil => rfl
  | cons x xs ih =>
    unfold insertRes
    split_ifs with h
    · exact (ih.cons x).trans (List.Perm.swap a x xs)
    · rfl

theorem insertRes_pairwise (a : ImageResult) (l : List ImageResult)
    (hl : l.Pairwise specGE) : (insertRes a l).Pairwise specGE := by
  induction l with
  | nil => simp [insertRes]
  | cons x xs ih =>
    rw [List.pairwise_cons] at hl
    unfold insertRes
    split_ifs with h
    · rw [List.pairwise_cons]
      refine ⟨?_, ih hl.2⟩
      intro y hy
      rcases List.mem_cons.mp (((insertRes_perm a xs).mem_iff).mp hy) with hy | hy
      · rw [hy]
        exact specGT_imp_specGE ((goLess_true_iff x a).mp h)
      · exact hl.1 y hy
    · have hax : specGE a x := (goLess_false_iff x a).mp (Bool.eq_false_iff.mpr h)
      rw [List.pairwise_cons]
      refine ⟨?_, List.pairwise_cons.mpr hl⟩
      intro y hy
      rcases List.mem_cons.mp hy with hy | hy
      · rw [hy]
        exact hax
      · exact specGE_trans hax (hl.1 y hy)

theorem sortResults_perm (l : List ImageResult) : List.Perm (sortResults l) l := by
  induction l with
  | nil => rfl
  | cons a l ih =>
    show List.Perm (insertRes a (sortResults l)) (a :: l)
    exact (insertRes_perm a (sortResults l)).trans (ih.cons a)

theorem sortResults_pairwise (l : List ImageResult) :
    (sortResults l).Pairwise specGE := by
  induction l with
  | nil => exact List.Pairwise.nil
  | cons a l ih => exact insertRes_pairwise a (sortResults l) ih

theorem filter_insertRes (p : ImageResult → Bool) (a : ImageResult)
    (l : List ImageResult)
    (hp : ∀ x, p x = true → p a = true → goLess x a = false) :
    (insertRes a l).filter p = if p a then a :: l.filter p else l.filter p := by
  induction l with
  | nil =>
    by_cases hpa : p a = true
    · simp [insertRes, List.filter_cons, hpa]
    · simp [insertRes, List.filter_cons, hpa]
  | cons x xs ih =>
    unfold insertRes
    by_cases h : goLess x a = true
    · rw [if_pos h]
      by_cases hpa : p a = true
      · have hx : p x = false := by
          cases hxv : p x
          · rfl
          · rw [hp x hxv hpa] at h
            exact Bool.noConfusion h
        simp [List.filter_cons, hx, ih, hpa]
      · simp [List.filter_cons, ih, hpa]
    · rw [if_neg h]
      by_cases hpa : p a = true
      · simp [List.filter_cons, hpa]
      · simp [List.filter_cons, hpa]

theorem sameKey_goLess (t : Int) (d : String) (x a : ImageResult)
    (hx : sameKey t d x = true) (ha : sameKey t d a = true) : goLess x a = false := by
  unfold sameKey at hx ha
  simp only [Bool.and_eq_true, beq_iff_eq] at hx ha
  unfold goLess
  rw [hx.1, ha.1, hx.2, ha.2]
  simp

theorem sortResults_stable (l : List ImageResult) (t : Int) (d : String) :
    (sortResults l).filter (sameKey t d) = l.filter (sameKey t d) := by
  induction l with
  | nil => rfl
  | cons a l ih =>
    show (insertRes a (sortResults l)).filter (sameKey t d) = _
    rw [filter_insertRes (sameKey t d) a (sortResults l)
      (fun x hx ha => sameKey_goLess t d x a hx ha)]
    by_cases hpa : sameKey t d a = true
    · rw [if_pos hpa, ih, List.filter_cons_of_pos (by simp [hpa])]
    · rw [if_neg hpa, ih,
        List.filter_cons_of_neg (by simp [Bool.eq_false_iff.mpr hpa])]

theorem pairwise_specGT_of_nodupKeys (l : List ImageResult)
    (hp : l.Pairwise specGE) (hn : (l.map resKey).Nodup) : l.Pairwise specGT := by
  have hne : l.Pairwise (fun a b => resKey a ≠ resKey b) := List.pairwise_map.mp hn
  refine (hp.and hne).imp ?_
  rintro a b ⟨hge, hkey⟩
  rcases hge with h | ⟨h1, h2 | h2⟩
  · exact Or.inl h
  · exact Or.inr ⟨h1, h2⟩
  · exfalso
    apply hkey
    unfold resKey
    rw [h1, h2]

theorem eq_of_perm_of_pairwise_specGT (l1 l2 : List ImageResult)
    (hperm : List.Perm l1 l2) (h1 : l1.Pairwise specGT) (h2 : l2.Pairwise specGT) :
    l1 = l2 := by
  haveI : IsAntisymm ImageResult specGT := by
    constructor
    intro a b hab hba
    exfalso
    rcases hab with h | ⟨h3, h4⟩ <;> rcases hba with h5 | ⟨h5, h6⟩
    · omega
    · omega
    · omega
    · exact absurd h6 (lt_asymm h4)
  exact List.eq_of_perm_of_sorted hperm h1 h2

/-- C6: a list returned by `query` without error is
`sortResults (filterLabels ...)`; the sort is a permutation of its input,
is ordered by build timestamp descending with ties broken by image digest
descending, is stable on results equal in both keys, and — whenever no two
distinct results share both keys — yields the same list for any two
arrival orders. -/
theorem query_noerror_sort_order (l m m2 : List ImageResult)
    (labels : List (String × String)) :
    (queryFinish (l, none) labels).1 = sortResults (filterLabels l labels) ∧
    List.Perm (sortResults m) m ∧
    (sortResults m).Pairwise specGE ∧
    (∀ t d, (sortResults m).filter (sameKey t d) = m.filter (sameKey t d)) ∧
    (List.Perm m m2 → (m.map resKey).Nodup → sortResults m = sortResults m2) := by
  refine ⟨by simp [queryFinish], sortResults_perm m, sortResults_pairwise m,
    fun t d => sortResults_stable m t d, ?_⟩
  intro hperm hnodup
  apply eq_of_perm_of_pairwise_specGT
  · exact ((sortResults_perm m).trans hperm).trans (sortResults_perm m2).symm
  · exact pairwise_specGT_of_nodupKeys (sortResults m) (sortResults_pairwise m)
      (((sortResults_perm m).map resKey).nodup_iff.mpr hnodup)
  · exact pairwise_specGT_of_nodupKeys (sortResults m2) (sortResults_pairwise m2)
      (((sortResults_perm m2).map resKey).nodup_iff.mpr
        ((hperm.map resKey).nodup_iff.mp hnodup))

theorem query_noerror_sort_order_witness :
    List.Perm [resA, resB] [resB, resA] ∧ ([resA, resB].map resKey).Nodup ∧
    sortResults [resA, resB] = sortResults [resB, resA] ∧
    sortResults [resA, resB] = [resB, resA] := by
  refine ⟨by decide, by decide, ?_, by decide⟩
  exact (query_noerror_sort_order [resA] [resA, resB] [resB, resA] []).2.2.2.2
    (by decide) (by decide)

/-! ## Label filtering (C7) -/

theorem goMapGet_eq_iff (m : List (String × String)) (k v : String) :
    goMapGet m k = v ↔ (m.lookup k = some v ∨ (v = "" ∧ m.lookup k = none)) := by
  unfold goMapGet
  cases h : m.lookup k with
  | none => simp [eq_comm]
  | some w => simp [eq_comm]

/-- C7 (counterexample): a result whose label map lacks the required key
`"env"` is nevertheless kept when the required value is the empty string,
because a Go map read of a missing key yields the zero value `""`; the
claimed "missing key ⇒ dropped" is false. -/
theorem filterLabels_counterexample :
    filterLabels [resNoLabels] [("env", "")] = [resNoLabels] ∧
    (resNoLabels.Labels).lookup "env" = none := by
  constructor
  · rfl
  · rfl

/-- C7 (amended): a result is kept iff, for every required key/value
pair, its label map maps the key to the identical value, **or** the
required value is the empty string and the key is missing (the Go
zero-value read). -/
theorem filterLabels_exact (images : List ImageResult)
    (labels : List (String × String)) :
    filterLabels images labels =
      images.filter (fun im => decide (∀ kv ∈ labels,
        im.Labels.lookup kv.1 = some kv.2 ∨
          (kv.2 = "" ∧ im.Labels.lookup kv.1 = none))) := by
  unfold filterLabels
  apply List.filter_congr
  intro im _
  rw [Bool.eq_iff_iff]
  simp only [List.all_eq_true, beq_iff_eq, decide_eq_true_eq]
  constructor
  · intro h kv hkv
    exact (goMapGet_eq_iff im.Labels kv.1 kv.2).mp (h kv hkv)
  · intro h kv hkv
    exact (goMapGet_eq_iff im.Labels kv.1 kv.2).mpr (h kv hkv)

/-! ## Resolver field construction (C8) -/

/-- C8 (counterexample): a creation instant of 0.6s is *rounded up* to a
full second by `Round(time.Second)`, where truncation would discard the
0.6s; the claimed "truncated ... never rounded up" is false. -/
theorem buildTimestamp_rounds_up_counterexample :
    (processManifestResult sampleRef "sha256:cfg" sampleConfig
      "sha256:dg").BuildTimestamp = 1000000000 ∧
    goTruncateSecond sampleConfig.created = 0 ∧
    (queryOneV1Result sampleRef sampleV1History "sha256:dg").BuildTimestamp
      = 1000000000 ∧
    (1000000000 : Int) ≠ 0 := by
  refine ⟨?_, ?_, ?_, ?_⟩ <;> decide

/-- C8 (amended): all three resolvers build `platform` as `"os/arch"` and
`buildTimestamp` as the creation instant (`UTC` preserving the instant)
*rounded to the nearest second, halfway values rounding up* — a multiple
of one second within half a second of the decoded instant — rather than
truncated. -/
theorem resolver_platform_and_rounded_timestamp (ref : RefParts) (cd : String)
    (cfg : ImageConfigFields) (dg : String) (v1h : SchemaV1HistoryFields) :
    (processManifestResult ref cd cfg dg).Platform =
      cfg.os ++ "/" ++ cfg.architecture ∧
    (processManifestResult ref cd cfg dg).BuildTimestamp =
      goRoundSecond cfg.created ∧
    (queryOneV1Result ref v1h dg).Platform =
      v1h.os ++ "/" ++ v1h.architecture ∧
    (queryOneV1Result ref v1h dg).BuildTimestamp = goRoundSecond v1h.created ∧
    goRoundSecond cfg.created % 1000000000 = 0 ∧
    2 * (goRoundSecond cfg.created - cfg.created) ≤ 1000000000 ∧
    2 * (cfg.created - goRoundSecond cfg.created) < 1000000000 := by
  refine ⟨rfl, rfl, rfl, rfl, ?_, ?_, ?_⟩ <;>
    · unfold goRoundSecond
      split_ifs <;> omega

/-! ## Platform parsing (C9, C10) -/

theorem takeWhile_noslash_all (l : List Char) (h : '/' ∉ l) :
    l.takeWhile (· ≠ '/') = l := by
  induction l with
  | nil => rfl
  | cons c rest ih =>
    have hc : c ≠ '/' := fun hc => h (hc ▸ List.mem_cons_self c rest)
    have ih2 := ih (fun hm => h (List.mem_cons_of_mem c hm))
    rw [List.takeWhile_cons, if_pos (by simp [hc]), ih2]

theorem takeWhile_noslash_append (os rest : List Char) (h : '/' ∉ os) :
    (os ++ '/' :: rest).takeWhile (· ≠ '/') = os := by
  induction os with
  | nil => rw [List.nil_append, List.takeWhile_cons, if_neg (by simp)]
  | cons c os2 ih =>
    have hc : c ≠ '/' := fun hc => h (hc ▸ List.mem_cons_self c os2)
    have ih2 := ih (fun hm => h (List.mem_cons_of_mem c hm))
    rw [List.cons_append, List.takeWhile_cons, if_pos (by simp [hc]), ih2]

theorem matchOsArch_wf (os arch : List Char) (hos : os ≠ []) (harch : arch ≠ [])
    (h1 : '/' ∉ os) (h2 : '/' ∉ arch) :
    matchOsArch (os ++ '/' :: arch) = some (os, arch) := by
  unfold matchOsArch
  rw [takeWhile_noslash_append os arch h1]
  rw [if_neg (by simp [hos])]
  rw [List.drop_left]
  show (if (arch.takeWhile (· ≠ '/')).isEmpty = true then none
    else some (os, arch.takeWhile (· ≠ '/'))) = some (os, arch)
  rw [takeWhile_noslash_all arch h2, if_neg (by simp [harch])]

theorem matchOsArch_none_of_noslash (l : List Char) (h : '/' ∉ l) :
    matchOsArch l = none := by
  unfold matchOsArch
  rw [takeWhile_noslash_all l h]
  by_cases hl : l = []
  · subst hl
    rfl
  · rw [if_neg (by simp [hl]), List.drop_length]

theorem findOsArch_none_of_noslash (l : List Char) (h : '/' ∉ l) :
    findOsArch l = none := by
  induction l with
  | nil => rfl
  | cons c rest ih =>
    unfold findOsArch
    rw [matchOsArch_none_of_noslash (c :: rest) h]
    exact ih (fun hm => h (List.mem_cons_of_mem c hm))

theorem findOsArch_wf (os arch : List Char) (hos : os ≠ []) (harch : arch ≠ [])
    (h1 : '/' ∉ os) (h2 : '/' ∉ arch) :
    findOsArch (os ++ '/' :: arch) = some (os, arch) := by
  cases os with
  | nil => exact absurd rfl hos
  | cons c os2 =>
    show findOsArch (c :: (os2 ++ '/' :: arch)) = _
    unfold findOsArch
    rw [show matchOsArch (c :: (os2 ++ '/' :: arch)) =
      matchOsArch ((c :: os2) ++ '/' :: arch) from rfl]
    rw [matchOsArch_wf (c :: os2) arch hos harch h1 h2]

theorem parsePlatform_wf (os arch : String) (hos : os.data ≠ [])
    (harch : arch.data ≠ []) (h1 : '/' ∉ os.data) (h2 : '/' ∉ arch.data) :
    parsePlatform (os ++ "/" ++ arch) = some ⟨os, arch⟩ := by
  unfold parsePlatform
  have hdata : (os ++ "/" ++ arch).data = os.data ++ '/' :: arch.data := by
    simp [String.data_append]
  rw [hdata, findOsArch_wf os.data arch.data hos harch h1 h2]
  rfl

theorem isSupportedPlatformLoop_total (l : List String)
    (hwf : ∀ x ∈ l, WfPlatformEntry x) (p : V1Platform) :
    ∃ b, isSupportedPlatformLoop p l = some b := by
  induction l with
  | nil => exact ⟨false, rfl⟩
  | cons x rest ih =>
    obtain ⟨os, arch, hx, hos, harch, h1, h2⟩ := hwf x (List.mem_cons_self x rest)
    unfold isSupportedPlatformLoop
    rw [hx, parsePlatform_wf os arch hos harch h1 h2]
    by_cases hm : (eqFold os p.OS && eqFold arch p.Architecture) = true
    · refine ⟨true, ?_⟩
      show (if (eqFold os p.OS && eqFold arch p.Architecture) = true then some true
        else isSupportedPlatformLoop p rest) = some true
      rw [if_pos hm]
    · obtain ⟨b, hb⟩ := ih (fun y hy => hwf y (List.mem_cons_of_mem x hy))
      refine ⟨b, ?_⟩
      show (if (eqFold os p.OS && eqFold arch p.Architecture) = true then some true
        else isSupportedPlatformLoop p rest) = some b
      rw [if_neg hm]
      exact hb

theorem isSupportedPlatform_total (req : List String)
    (hwf : ∀ x ∈ req, WfPlatformEntry x) (p : V1Platform) :
    ∃ b, isSupportedPlatform req p = some b := by
  unfold isSupportedPlatform
  by_cases h : req.length = 0
  · exact ⟨true, by rw [if_pos h]⟩
  · rw [if_neg h]
    exact isSupportedPlatformLoop_total req hwf p

theorem slashfree_decomp_unique (os arch os2 arch2 : String)
    (h : os ++ "/" ++ arch = os2 ++ "/" ++ arch2)
    (h1 : '/' ∉ os.data) (h2 : '/' ∉ os2.data) : os = os2 ∧ arch = arch2 := by
  have hd : os.data ++ '/' :: arch.data = os2.data ++ '/' :: arch2.data := by
    have hc := congrArg String.data h
    simpa [String.data_append] using hc
  have hos : os.data = os2.data := by
    rw [← takeWhile_noslash_append os.data arch.data h1,
      ← takeWhile_noslash_append os2.data arch2.data h2, hd]
  have harch : arch.data = arch2.data := by
    rw [hos] at hd
    have hcons := List.append_cancel_left hd
    injection hcons
  exact ⟨String.ext hos, String.ext harch⟩

theorem isSupportedPlatformLoop_true_iff (l : List String)
    (hwf : ∀ x ∈ l, WfPlatformEntry x) (p : V1Platform) :
    isSupportedPlatformLoop p l = some true ↔
      ∃ os arch : String, (os ++ "/" ++ arch) ∈ l ∧ os.data ≠ [] ∧
        arch.data ≠ [] ∧ '/' ∉ os.data ∧ '/' ∉ arch.data ∧
        eqFold os p.OS = true ∧ eqFold arch p.Architecture = true := by
  induction l with
  | nil => simp [isSupportedPlatformLoop]
  | cons x rest ih =>
    obtain ⟨os, arch, hx, hos, harch, h1, h2⟩ := hwf x (List.mem_cons_self x rest)
    have ihr := ih (fun y hy => hwf y (List.mem_cons_of_mem x hy))
    unfold isSupportedPlatformLoop
    rw [hx, parsePlatform_wf os arch hos harch h1 h2]
    show (if (eqFold os p.OS && eqFold arch p.Architecture) = true then some true
      else isSupportedPlatformLoop p rest) = some true ↔ _
    by_cases hm : (eqFold os p.OS && eqFold arch p.Architecture) = true
    · rw [if_pos hm]
      obtain ⟨hm1, hm2⟩ : eqFold os p.OS = true ∧ eqFold arch p.Architecture = true := by
        simpa using hm
      exact iff_of_true rfl
        ⟨os, arch, List.mem_cons_self _ rest, hos, harch, h1, h2, hm1, hm2⟩
    · rw [if_neg hm, ihr]
      constructor
      · rintro ⟨o2, a2, hmem, ho2, ha2, hs1, hs2, he1, he2⟩
        exact ⟨o2, a2, List.mem_cons_of_mem _ hmem, ho2, ha2, hs1, hs2, he1, he2⟩
      · rintro ⟨o2, a2, hmem, ho2, ha2, hs1, hs2, he1, he2⟩
        rcases List.mem_cons.mp hmem with heq | hmem2
        · obtain ⟨ho, ha⟩ := slashfree_decomp_unique o2 a2 os arch heq hs1 h1
          exfalso
          apply hm
          rw [ho] at he1
          rw [ha] at he2
          simp [he1, he2]
        · exact ⟨o2, a2, hmem2, ho2, ha2, hs1, hs2, he1, he2⟩

/-- C9: under well-formed `requiredPlatforms` entries, the index branch
spawns one child resolution task for exactly the children accepted by
`isSupportedPlatform`, and a child is accepted iff the requirement list is
empty or its platform matches some `os/arch` entry, comparing both
components case-insensitively. -/
theorem index_child_selection (req : List String)
    (hwf : ∀ x ∈ req, WfPlatformEntry x) (manifests : List ChildDescriptor)
    (p : V1Platform) :
    selectedChildren req manifests =
      some (manifests.filter
        (fun d => isSupportedPlatform req d.platform == some true)) ∧
    (isSupportedPlatform req p = some true ↔
      (req = [] ∨ ∃ os arch : String, (os ++ "/" ++ arch) ∈ req ∧
        os.data ≠ [] ∧ arch.data ≠ [] ∧ '/' ∉ os.data ∧ '/' ∉ arch.data ∧
        eqFold os p.OS = true ∧ eqFold arch p.Architecture = true)) := by
  constructor
  · induction manifests with
    | nil => rfl
    | cons d rest ih =>
      obtain ⟨b, hb⟩ := isSupportedPlatform_total req hwf d.platform
      unfold selectedChildren
      rw [hb, ih]
      cases b
      · simp [List.filter_cons, hb]
      · simp [List.filter_cons, hb]
  · by_cases hreq : req = []
    · subst hreq
      simp [isSupportedPlatform]
    · have hlen : ¬req.length = 0 := by simpa [List.length_eq_zero] using hreq
      unfold isSupportedPlatform
      rw [if_neg hlen, isSupportedPlatformLoop_true_iff req hwf p]
      simp [hreq]

theorem index_child_selection_witness :
    (∀ x ∈ ["LINUX/AMD64"], WfPlatformEntry x) ∧
    selectedChildren ["LINUX/AMD64"] [childAmd, childArm] = some [childAmd] := by
  have hwf : ∀ x ∈ ["LINUX/AMD64"], WfPlatformEntry x := by
    intro x hx
    rw [List.mem_singleton.mp hx]
    exact ⟨"LINUX", "AMD64", by decide, by decide, by decide, by decide, by decide⟩
  refine ⟨hwf, ?_⟩
  rw [(index_child_selection ["LINUX/AMD64"] hwf [childAmd, childArm]
    ⟨"x", "y"⟩).1]
  decide

/-- C10: `parsePlatform` panics (models: `none`) on any subject the
platform regex does not match — in particular on any string without a
slash, such as `"linux"` — and the panic propagates through
`isSupportedPlatform`; conversely, when every requirement entry has the
`os/arch` shape, `isSupportedPlatform` is total. -/
theorem parsePlatform_requires_slash_shape :
    parsePlatform "linux" = none ∧
    (∀ p : V1Platform, isSupportedPlatform ["linux"] p = none) ∧
    (∀ s : String, '/' ∉ s.data → parsePlatform s = none) ∧
    (∀ req : List String, (∀ x ∈ req, WfPlatformEntry x) →
      ∀ p : V1Platform, isSupportedPlatform req p ≠ none) := by
  have hlinux : parsePlatform "linux" = none := by decide
  refine ⟨hlinux, ?_, ?_, ?_⟩
  · intro p
    simp [isSupportedPlatform, isSupportedPlatformLoop, hlinux]
  · intro s hs
    unfold parsePlatform
    rw [findOsArch_none_of_noslash s.data hs]
    rfl
  · intro req hwf p
    obtain ⟨b, hb⟩ := isSupportedPlatform_total req hwf p
    simp [hb]

theorem parsePlatform_requires_slash_shape_witness :
    ('/' ∉ "linux".data ∧ parsePlatform "linux" = none) ∧
    (WfPlatformEntry "linux/amd64" ∧
      isSupportedPlatform ["linux/amd64"]
        ({ OS := "windows", Architecture := "arm64" } : V1Platform) ≠ none) := by
  have hwf1 : WfPlatformEntry "linux/amd64" :=
    ⟨"linux", "amd64", by decide, by decide, by decide, by decide, by decide⟩
  refine ⟨⟨by decide, ?_⟩, hwf1, ?_⟩
  · exact parsePlatform_requires_slash_shape.2.2.1 "linux" (by decide)
  · refine parsePlatform_requires_slash_shape.2.2.2 ["linux/amd64"] ?_
      { OS := "windows", Architecture := "arm64" }
    intro x hx
    rw [List.mem_singleton.mp hx]
    exact hwf1

/-! ## Tag filtering (C5): the matcher agrees with the declarative
regex semantics -/

theorem runEnds_sound {cs : List Char} (k : CClass) :
    ∀ (l : List Char) (i : Nat), l = cs.drop i →
      ∀ j ∈ runEnds (classMatches k) l i, RAtomM cs (.plus k) i j := by
  intro l
  induction l with
  | nil =>
    intro i _ j hj
    simp [runEnds] at hj
  | cons c rest ih =>
    intro i hl j hj
    have hci : cs[i]? = some c := by
      have h0 : (cs.drop i)[0]? = some c := by
        rw [← hl]
        simp
      rw [List.getElem?_drop] at h0
      simpa using h0
    have hrest : rest = cs.drop (i + 1) := by
      have htl : (cs.drop i).tail = cs.drop (i + 1) := by
        rw [← List.drop_one, List.drop_drop]
      rw [← htl, ← hl]
      rfl
    unfold runEnds at hj
    by_cases hc : classMatches k c = true
    · rw [if_pos hc] at hj
      rcases List.mem_cons.mp hj with hj | hj
      · subst hj
        exact RAtomM.plusOne hci hc
      · exact RAtomM.plusCons hci hc (ih (i + 1) hrest j hj)
    · rw [if_neg hc] at hj
      cases hj

theorem ratomM_sound {cs : List Char} :
    ∀ (a : RAtom) (i j : Nat), j ∈ atomEnds cs i a → RAtomM cs a i j := by
  intro a i j hj
  cases a with
  | cls k =>
    cases hg : cs[i]? with
    | none => simp [atomEnds, hg] at hj
    | some d =>
      by_cases hc : classMatches k d = true
      · simp [atomEnds, hg, hc] at hj
        subst hj
        exact RAtomM.cls hg hc
      · simp [atomEnds, hg, hc] at hj
  | plus k => exact runEnds_sound k (cs.drop i) i rfl j hj
  | anchorStart =>
    by_cases hi : i = 0
    · subst hi
      simp [atomEnds] at hj
      subst hj
      exact RAtomM.anchorStart
    · simp [atomEnds, hi] at hj
  | anchorEnd =>
    by_cases hi : i = cs.length
    · subst hi
      simp [atomEnds] at hj
      subst hj
      exact RAtomM.anchorEnd
    · simp [atomEnds, hi] at hj

theorem ratomM_complete {cs : List Char} {a : RAtom} {i j : Nat}
    (hm : RAtomM cs a i j) : j ∈ atomEnds cs i a := by
  induction hm with
  | cls hgd hmatch => simp [atomEnds, hgd, hmatch]
  | plusOne hgd hmatch =>
    obtain ⟨hlt, hval⟩ := List.getElem?_eq_some.mp hgd
    show _ ∈ runEnds _ (cs.drop _) _
    rw [List.drop_eq_getElem_cons hlt]
    unfold runEnds
    rw [hval, if_pos hmatch]
    exact List.mem_cons_self _ _
  | plusCons hgd hmatch hrec ih =>
    obtain ⟨hlt, hval⟩ := List.getElem?_eq_some.mp hgd
    show _ ∈ runEnds _ (cs.drop _) _
    rw [List.drop_eq_getElem_cons hlt]
    unfold runEnds
    rw [hval, if_pos hmatch]
    exact List.mem_cons_of_mem _ ih
  | anchorStart => simp [atomEnds]
  | anchorEnd => simp [atomEnds]

theorem seqEnds_sound {cs : List Char} :
    ∀ (re : List RAtom) (i j : Nat), j ∈ seqEnds cs re i → SeqM cs re i j := by
  intro re
  induction re with
  | nil =>
    intro i j hj
    rw [List.mem_singleton.mp hj]
    exact SeqM.nil
  | cons a re ih =>
    intro i j hj
    unfold seqEnds at hj
    obtain ⟨m, hm, hj2⟩ := List.mem_flatMap.mp hj
    exact SeqM.cons (ratomM_sound a i m hm) (ih m j hj2)

theorem seqM_complete {cs : List Char} {re : List RAtom} {i j : Nat}
    (hm : SeqM cs re i j) : j ∈ seqEnds cs re i := by
  induction hm with
  | nil => exact List.mem_singleton.mpr rfl
  | cons ha hs ih =>
    unfold seqEnds
    exact List.mem_flatMap.mpr ⟨_, ratomM_complete ha, ih⟩

theorem seqM_exists_start_le {cs : List Char} {re : List RAtom}
    (h : ∃ i j, SeqM cs re i j) : ∃ i j, i ≤ cs.length ∧ SeqM cs re i j := by
  obtain ⟨i, j, hm⟩ := h
  cases re with
  | nil => exact ⟨0, 0, Nat.zero_le _, SeqM.nil⟩
  | cons a re2 =>
    cases hm with
    | cons ha hs =>
      cases ha with
      | cls hgd hmatch =>
        exact ⟨i, j, le_of_lt (List.getElem?_eq_some.mp hgd).1,
          SeqM.cons (RAtomM.cls hgd hmatch) hs⟩
      | plusOne hgd hmatch =>
        exact ⟨i, j, le_of_lt (List.getElem?_eq_some.mp hgd).1,
          SeqM.cons (RAtomM.plusOne hgd hmatch) hs⟩
      | plusCons hgd hmatch hrec =>
        exact ⟨i, j, le_of_lt (List.getElem?_eq_some.mp hgd).1,
          SeqM.cons (RAtomM.plusCons hgd hmatch hrec) hs⟩
      | anchorStart =>
        exact ⟨0, j, Nat.zero_le _, SeqM.cons RAtomM.anchorStart hs⟩
      | anchorEnd =>
        exact ⟨cs.length, j, le_refl _, SeqM.cons RAtomM.anchorEnd hs⟩

theorem matchString_iff (re : List RAtom) (s : String) :
    matchString re s = true ↔ ContainsMatch re s := by
  unfold matchString ContainsMatch
  rw [List.any_eq_true]
  constructor
  · rintro ⟨i, _, hne⟩
    have hne2 : seqEnds s.data re i ≠ [] := by simpa using hne
    obtain ⟨j, hj⟩ := List.exists_mem_of_ne_nil _ hne2
    exact ⟨i, j, seqEnds_sound re i j hj⟩
  · intro h
    obtain ⟨i, j, hile, hm⟩ := seqM_exists_start_le h
    refine ⟨i, List.mem_range.mpr (by omega), ?_⟩
    simpa using List.ne_nil_of_mem (seqM_complete hm)

theorem seqEnds_append {cs : List Char} (re1 re2 : List RAtom) :
    ∀ i, seqEnds cs (re1 ++ re2) i =
      (seqEnds cs re1 i).flatMap (seqEnds cs re2) := by
  induction re1 with
  | nil =>
    intro i
    simp [seqEnds]
  | cons a re ih =>
    intro i
    show (atomEnds cs i a).flatMap (seqEnds cs (re ++ re2)) = _
    rw [show seqEnds cs (a :: re) i = (atomEnds cs i a).flatMap (seqEnds cs re)
      from rfl]
    rw [List.flatMap_assoc]
    exact List.flatMap_congr (fun m _ => ih m)

theorem seqEnds_lits {cs : List Char} :
    ∀ (l : List Char) (i : Nat),
      seqEnds cs (l.map (fun c => RAtom.cls (CClass.lit c))) i =
        if l <+: cs.drop i then [i + l.length] else [] := by
  intro l
  induction l with
  | nil =>
    intro i
    simp [seqEnds]
  | cons c l ih =>
    intro i
    rw [List.map_cons]
    show (atomEnds cs i (RAtom.cls (CClass.lit c))).flatMap _ = _
    cases hg : cs[i]? with
    | none =>
      have hd : cs.drop i = [] :=
        List.drop_eq_nil_of_le (List.getElem?_eq_none_iff.mp hg)
      simp [atomEnds, hg, hd]
    | some d =>
      have hd : cs.drop i = d :: cs.drop (i + 1) := by
        obtain ⟨hlt, hval⟩ := List.getElem?_eq_some.mp hg
        rw [List.drop_eq_getElem_cons hlt, hval]
      by_cases hc : d = c
      · subst hc
        have hcm : classMatches (CClass.lit d) d = true := by simp [classMatches]
        rw [show atomEnds cs i (RAtom.cls (CClass.lit d)) = [i + 1] from by
          simp [atomEnds, hg, hcm]]
        rw [show ([i + 1] : List Nat).flatMap
            (seqEnds cs (l.map (fun c => RAtom.cls (CClass.lit c)))) =
          seqEnds cs (l.map (fun c => RAtom.cls (CClass.lit c))) (i + 1) from by
          simp]
        rw [ih (i + 1), hd]
        by_cases hp : l <+: cs.drop (i + 1)
        · rw [if_pos hp, if_pos (List.cons_prefix_cons.mpr ⟨rfl, hp⟩)]
          simp only [List.length_cons, List.cons.injEq, and_true]
          omega
        · rw [if_neg hp,
            if_neg (fun hcontra => hp (List.cons_prefix_cons.mp hcontra).2)]
      · have hcm : classMatches (CClass.lit c) d = false := by
          simp [classMatches, hc]
        rw [show atomEnds cs i (RAtom.cls (CClass.lit c)) = [] from by
          simp [atomEnds, hg, hcm]]
        rw [hd]
        rw [if_neg (fun hcontra =>
          hc ((List.cons_prefix_cons.mp hcontra).1).symm)]
        rfl

theorem seqEnds_anchored_lits (l cs : List Char) (i : Nat) :
    seqEnds cs (RAtom.anchorStart ::
        (l.map (fun c => RAtom.cls (CClass.lit c)) ++ [RAtom.anchorEnd])) i =
      if i = 0 ∧ cs = l then [cs.length] else [] := by
  show (atomEnds cs i RAtom.anchorStart).flatMap _ = _
  by_cases hi : i = 0
  · subst hi
    rw [show atomEnds cs 0 RAtom.anchorStart = [0] from by simp [atomEnds]]
    rw [show ([0] : List Nat).flatMap
        (seqEnds cs (l.map (fun c => RAtom.cls (CClass.lit c)) ++ [RAtom.anchorEnd])) =
      seqEnds cs (l.map (fun c => RAtom.cls (CClass.lit c)) ++ [RAtom.anchorEnd]) 0
      from by simp]
    rw [seqEnds_append, seqEnds_lits l 0, List.drop_zero]
    by_cases hp : l <+: cs
    · rw [if_pos hp]
      rw [show ([0 + l.length] : List Nat).flatMap (seqEnds cs [RAtom.anchorEnd]) =
        seqEnds cs [RAtom.anchorEnd] l.length from by simp]
      show (atomEnds cs l.length RAtom.anchorEnd).flatMap (seqEnds cs []) = _
      by_cases hlen : l.length = cs.length
      · have heq : l = cs := List.IsPrefix.eq_of_length hp hlen
        rw [show atomEnds cs l.length RAtom.anchorEnd = [l.length] from by
          simp [atomEnds, hlen]]
        rw [if_pos ⟨rfl, heq.symm⟩]
        simp [seqEnds, hlen]
      · rw [show atomEnds cs l.length RAtom.anchorEnd = [] from by
          simp [atomEnds, hlen]]
        rw [if_neg (fun (hcontra : 0 = 0 ∧ cs = l) => hlen (by rw [hcontra.2]))]
        rfl
    · rw [if_neg hp]
      rw [if_neg (fun (hcontra : 0 = 0 ∧ cs = l) => hp (hcontra.2 ▸ List.prefix_refl l))]
      rfl
  · rw [show atomEnds cs i RAtom.anchorStart = [] from by simp [atomEnds, hi]]
    rw [if_neg (fun (hcontra : i = 0 ∧ cs = l) => hi hcontra.1)]
    rfl

theorem matchString_anchored_lits (l : List Char) (s : String) :
    matchString (RAtom.anchorStart ::
        (l.map (fun c => RAtom.cls (CClass.lit c)) ++ [RAtom.anchorEnd])) s = true ↔
      s.data = l := by
  unfold matchString
  rw [List.any_eq_true]
  constructor
  · rintro ⟨i, _, hne⟩
    rw [seqEnds_anchored_lits] at hne
    by_cases hc : i = 0 ∧ s.data = l
    · exact hc.2
    · rw [if_neg hc] at hne
      simp at hne
  · intro h
    refine ⟨0, List.mem_range.mpr (by omega), ?_⟩
    rw [seqEnds_anchored_lits, if_pos ⟨rfl, h⟩]
    simp

theorem isSpecialChar_of_isBareMeta (c : Char) (h : isBareMeta c = true) :
    isSpecialChar c = true := by
  unfold isBareMeta at h
  unfold isSpecialChar
  simp only [Bool.or_eq_true, beq_iff_eq] at h ⊢
  tauto

theorem quoteMetaChars_eq_nil (l : List Char) (h : quoteMetaChars l = []) :
    l = [] := by
  cases l with
  | nil => rfl
  | cons c rest =>
    unfold quoteMetaChars at h
    by_cases hc : isSpecialChar c = true <;> simp [hc] at h

theorem quoteMetaChars_head_ne_plus (l rest : List Char)
    (h : rest.head? ≠ some '+') : (quoteMetaChars l ++ rest).head? ≠ some '+' := by
  cases l with
  | nil => simpa [quoteMetaChars] using h
  | cons c l2 =>
    unfold quoteMetaChars
    by_cases hc : isSpecialChar c = true
    · simp [hc]
    · have hplus : c ≠ '+' := fun hcc => by
        rw [hcc] at hc
        exact hc rfl
      simp [hc, hplus]

theorem isPlusTok_quoteTok (c : Char) : isPlusTok (quoteTok c) = false := by
  unfold quoteTok
  by_cases hc : isSpecialChar c = true
  · simp [hc, isPlusTok]
  · have hplus : c ≠ '+' := fun hcc => by
      rw [hcc] at hc
      exact hc rfl
    simp [hc, isPlusTok, hplus]

theorem atomOf_quoteTok (c : Char) :
    atomOf (quoteTok c) = some (RAtom.cls (CClass.lit c)) := by
  unfold quoteTok
  by_cases hc : isSpecialChar c = true
  · have hcd : c ≠ 'd' := fun hdd => by
      rw [hdd] at hc
      exact Bool.noConfusion hc
    simp [hc, atomOf, escClass, hcd]
  · have h2 : c ≠ '^' := fun hh => by
      rw [hh] at hc
      exact hc rfl
    have h3 : c ≠ '$' := fun hh => by
      rw [hh] at hc
      exact hc rfl
    have hbm : isBareMeta c = false := by
      cases hb : isBareMeta c
      · rfl
      · exact absurd (isSpecialChar_of_isBareMeta c hb) hc
    simp [hc, atomOf, h2, h3, hbm]

theorem tokenize_quoteMeta (l : List Char) : ∀ (rest : List Char),
    tokenize (quoteMetaChars l ++ rest) =
      (tokenize rest).map (fun ts => l.map quoteTok ++ ts) := by
  induction l with
  | nil =>
    intro rest
    show tokenize rest = _
    cases hp : tokenize rest <;> simp [hp]
  | cons c l ih =>
    intro rest
    by_cases hc : isSpecialChar c = true
    · have hshape : quoteMetaChars (c :: l) ++ rest =
          '\\' :: c :: (quoteMetaChars l ++ rest) := by
        simp [quoteMetaChars, hc]
      rw [hshape]
      show (if ('\\' : Char) = '\\' then
        (tokenize (quoteMetaChars l ++ rest)).map (fun ts => RTok.esc c :: ts)
        else (tokenize (c :: (quoteMetaChars l ++ rest))).map
          (fun ts => RTok.plain '\\' :: ts)) = _
      rw [if_pos rfl, ih rest]
      have hq : quoteTok c = RTok.esc c := by simp [quoteTok, hc]
      cases hp : tokenize rest <;> simp [hp, hq]
    · have hshape : quoteMetaChars (c :: l) ++ rest =
          c :: (quoteMetaChars l ++ rest) := by
        simp [quoteMetaChars, hc]
      have h1 : c ≠ '\\' := fun hh => by
        rw [hh] at hc
        exact hc rfl
      have hq : quoteTok c = RTok.plain c := by simp [quoteTok, hc]
      rw [hshape]
      cases htl : quoteMetaChars l ++ rest with
      | nil =>
        obtain ⟨hql, hrest⟩ := List.append_eq_nil.mp htl
        have hl : l = [] := quoteMetaChars_eq_nil l hql
        subst hl
        subst hrest
        simp [tokenize, h1, hq]
      | cons d X =>
        show (if c = '\\' then (tokenize X).map (fun ts => RTok.esc d :: ts)
          else (tokenize (d :: X)).map (fun ts => RTok.plain c :: ts)) = _
        rw [if_neg h1, ← htl, ih rest]
        cases hp : tokenize rest <;> simp [hp, hq]

theorem atomize_quoteToks (l : List Char) (ts2 : List RTok)
    (h2 : ∀ t, ts2.head? = some t → isPlusTok t = false) :
    atomize (l.map quoteTok ++ ts2) =
      (atomize ts2).map
        (fun r => l.map (fun c => RAtom.cls (CClass.lit c)) ++ r) := by
  induction l with
  | nil =>
    show atomize ts2 = _
    cases hp : atomize ts2 <;> simp [hp]
  | cons c l ih =>
    rw [List.map_cons, List.cons_append]
    cases htl : l.map quoteTok ++ ts2 with
    | nil =>
      obtain ⟨hml, hts⟩ := List.append_eq_nil.mp htl
      have hl : l = [] := List.map_eq_nil_iff.mp hml
      subst hl
      subst hts
      show (atomOf (quoteTok c)).map (fun a => [a]) = _
      rw [atomOf_quoteTok c]
      simp [atomize]
    | cons t2 rest2 =>
      have hplus : isPlusTok t2 = false := by
        cases l with
        | nil =>
          apply h2 t2
          rw [show ts2 = t2 :: rest2 from by simpa using htl]
          rfl
        | cons c2 l2 =>
          have ht2 : quoteTok c2 = t2 := by
            have hh := congrArg List.head? htl
            simpa using hh
          rw [← ht2]
          exact isPlusTok_quoteTok c2
      show (if isPlusTok t2 = true then _ else
        (atomOf (quoteTok c)).bind fun a =>
          (atomize (t2 :: rest2)).map (fun r => a :: r)) = _
      rw [if_neg (by simp [hplus]), atomOf_quoteTok c, ← htl, ih]
      cases hp : atomize ts2 <;> simp [hp]

theorem parseChars_quoted_anchored (p : List Char) :
    parseChars ('^' :: (quoteMetaChars p ++ ['$'])) =
      some (RAtom.anchorStart ::
        (p.map (fun c => RAtom.cls (CClass.lit c)) ++ [RAtom.anchorEnd])) := by
  unfold parseChars
  have htok : tokenize ('^' :: (quoteMetaChars p ++ ['$'])) =
      some (RTok.plain '^' :: (p.map quoteTok ++ [RTok.plain '$'])) := by
    cases hq : quoteMetaChars p ++ ['$'] with
    | nil => exact absurd hq (by simp)
    | cons t ts =>
      show (if ('^' : Char) = '\\' then _ else
        (tokenize (t :: ts)).map (fun l => RTok.plain '^' :: l)) = _
      rw [if_neg (by decide), ← hq, tokenize_quoteMeta p ['$']]
      simp [tokenize]
  rw [htok]
  show atomize (RTok.plain '^' :: (p.map quoteTok ++ [RTok.plain '$'])) = _
  cases hq : p.map quoteTok ++ [RTok.plain '$'] with
  | nil => exact absurd hq (by simp)
  | cons t2 rest2 =>
    have hplus : isPlusTok t2 = false := by
      cases p with
      | nil =>
        have ht2 : RTok.plain '$' = t2 := by simpa using congrArg List.head? hq
        rw [← ht2]
        rfl
      | cons c2 p2 =>
        have ht2 : quoteTok c2 = t2 := by simpa using congrArg List.head? hq
        rw [← ht2]
        exact isPlusTok_quoteTok c2
    show (if isPlusTok t2 = true then _ else
      (atomOf (RTok.plain '^')).bind fun a =>
        (atomize (t2 :: rest2)).map (fun r => a :: r)) = _
    rw [if_neg (by simp [hplus])]
    rw [show atomOf (RTok.plain '^') = some RAtom.anchorStart from rfl]
    rw [← hq, atomize_quoteToks p [RTok.plain '$'] (by intro t ht; cases ht; rfl)]
    simp [atomize, atomOf]

/-- C5: `filterTags` returns an order-preserving subset of the tags; a
pattern that is not slash-wrapped is quoted and anchored, keeping exactly
the tags equal to the pattern; a slash-wrapped pattern keeps exactly the
tags containing a match of the interior expression (`MatchString`
substring semantics, proved against the declarative regex semantics); and
the spec's two examples hold. -/
theorem filterTags_spec (tags : List String) (pattern : String) :
    (∀ out, filterTags tags pattern = some out → out.Sublist tags) ∧
    (slashWrapped pattern = false →
      filterTags tags pattern = some (tags.filter (fun t => t == pattern))) ∧
    (∀ re, slashWrapped pattern = true →
      parseChars (trimSlashes pattern.data) = some re →
      filterTags tags pattern = some (tags.filter (fun t => matchString re t)) ∧
      (∀ t : String, matchString re t = true ↔ ContainsMatch re t)) ∧
    (filterTags ["v1", "v2", "latest"] "/^v\\d+$/" = some ["v1", "v2"] ∧
      filterTags ["v1", "v2", "latest"] "latest" = some ["latest"]) := by
  refine ⟨?_, ?_, ?_, by decide, by decide⟩
  · intro out hout
    unfold filterTags at hout
    obtain ⟨re, _, hfil⟩ := Option.map_eq_some'.mp hout
    rw [← hfil]
    exact List.filter_sublist tags
  · intro hsw
    unfold filterTags
    rw [hsw]
    rw [if_neg (by simp), parseChars_quoted_anchored pattern.data]
    simp only [Option.map_some']
    congr 1
    apply List.filter_congr
    intro t _
    rw [Bool.eq_iff_iff, beq_iff_eq, matchString_anchored_lits pattern.data t]
    exact ⟨fun h => String.ext h, fun h => h ▸ rfl⟩
  · intro re hsw hre
    unfold filterTags
    rw [hsw, if_pos rfl, hre]
    exact ⟨rfl, fun t => matchString_iff re t⟩

theorem filterTags_spec_witness :
    slashWrapped "/^v\\d+$/" = true ∧
    parseChars (trimSlashes ("/^v\\d+$/").data) =
      some [RAtom.anchorStart, RAtom.cls (CClass.lit 'v'), RAtom.plus CClass.digit,
        RAtom.anchorEnd] ∧
    filterTags ["v1", "v2", "latest"] "/^v\\d+$/" =
      some (["v1", "v2", "latest"].filter
        (fun t => matchString [RAtom.anchorStart, RAtom.cls (CClass.lit 'v'),
          RAtom.plus CClass.digit, RAtom.anchorEnd] t)) ∧
    slashWrapped "latest" = false ∧
    filterTags ["latest", "dev"] "latest" =
      some (["latest", "dev"].filter (fun t => t == "latest")) ∧
    (filterTags ["x"] "/a/" = some [] → ([] : List String).Sublist ["x"]) := by
  refine ⟨by decide, by decide, ?_, by decide, ?_, ?_⟩
  · exact ((filterTags_spec ["v1", "v2", "latest"] "/^v\\d+$/").2.2.1
      [RAtom.anchorStart, RAtom.cls (CClass.lit 'v'), RAtom.plus CClass.digit,
        RAtom.anchorEnd] (by decide) (by decide)).1
  · exact (filterTags_spec ["latest", "dev"] "latest").2.1 (by decide)
  · exact (filterTags_spec ["x"] "/a/").1 []
